import Mathlib

set_option maxHeartbeats 1000000

/-!
Verification of the multi-spacecraft solar-wind matching engine
(`model_time_range.py` of jprchlik/solar_wind_matching).

The development shallowly embeds the plane solver (`solve_plane`,
`np.linalg.solve` contract), the angle-based validity gate of
`dtw_plane.pred_earth`, the DTW offset extraction and re-indexing of
`dtw_plane.dtw`, the penalty-radius computation, the series swap around
`multi_dtw.dtw_path_single`, and the re-windowing loop of
`dtw_plane.iterate_dtw`.  Machine floats are modelled as exact rationals
or reals; pandas timestamps and timedeltas as rationals (seconds);
missing values (NaN) as `Option` with `none` for NaN.
-/

/-- A 3-component vector, used for GSE positions, time-offset triples and
plane normals. -/
structure Vec3 (α : Type) where
  x : α
  y : α
  z : α
  deriving DecidableEq

/-- Componentwise sum of two 3-vectors. -/
def vadd3 {α : Type} [Add α] (a b : Vec3 α) : Vec3 α :=
  ⟨a.x + b.x, a.y + b.y, a.z + b.z⟩

/-- Scalar multiple of a 3-vector. -/
def smul3 {α : Type} [Mul α] (c : α) (v : Vec3 α) : Vec3 α :=
  ⟨c * v.x, c * v.y, c * v.z⟩

/-- Dot product of two 3-vectors (`np.dot` on length-3 arrays). -/
def dot3 {α : Type} [Mul α] [Add α] (a b : Vec3 α) : α :=
  a.x * b.x + a.y * b.y + a.z * b.z

/-- Determinant of the 3x3 matrix with rows `r1`, `r2`, `r3` (cofactor
expansion along the first row). -/
def det3 {α : Type} [Mul α] [Add α] [Sub α] (r1 r2 r3 : Vec3 α) : α :=
  r1.x * (r2.y * r3.z - r2.z * r3.y)
    - r1.y * (r2.x * r3.z - r2.z * r3.x)
    + r1.z * (r2.x * r3.y - r2.y * r3.x)

/-- Cramer-rule solution of the 3x3 linear system whose rows are `r1`,
`r2`, `r3` and whose right-hand side is `t`: the exact value that
`np.linalg.solve(p, t)` returns on a nonsingular matrix. -/
def cramer3 {α : Type} [Field α] (r1 r2 r3 t : Vec3 α) : Vec3 α :=
  let d := det3 r1 r2 r3
  ⟨det3 ⟨t.x, r1.y, r1.z⟩ ⟨t.y, r2.y, r2.z⟩ ⟨t.z, r3.y, r3.z⟩ / d,
   det3 ⟨r1.x, t.x, r1.z⟩ ⟨r2.x, t.y, r2.z⟩ ⟨r3.x, t.z, r3.z⟩ / d,
   det3 ⟨r1.x, r1.y, t.x⟩ ⟨r2.x, r2.y, t.y⟩ ⟨r3.x, r3.y, t.z⟩ / d⟩

/-- `cramer3` really is the solution of the linear system: multiplying the
matrix rows against it recovers the right-hand side whenever the
determinant is nonzero.  This ties the embedding to the `np.linalg.solve`
contract. -/
lemma cramer3_solves {α : Type} [Field α] (r1 r2 r3 t : Vec3 α)
    (h : det3 r1 r2 r3 ≠ 0) :
    dot3 r1 (cramer3 r1 r2 r3 t) = t.x ∧
    dot3 r2 (cramer3 r1 r2 r3 t) = t.y ∧
    dot3 r3 (cramer3 r1 r2 r3 t) = t.z := by
  refine ⟨?_, ?_, ?_⟩ <;>
    · simp only [cramer3, dot3]
      field_simp
      simp only [det3]
      ring

/-- Adding to the first row a linear combination of the other rows does
not change the determinant; scaling the first row scales it.  Packaged as
the three annihilation identities needed for singular geometry. -/
lemma det3_mul_eq_zero_of_comb {α : Type} [Field α]
    (r1 r2 r3 : Vec3 α) (a b c : α)
    (hcomb : vadd3 (vadd3 (smul3 a r1) (smul3 b r2)) (smul3 c r3) = ⟨0, 0, 0⟩) :
    a * det3 r1 r2 r3 = 0 ∧ b * det3 r1 r2 r3 = 0 ∧ c * det3 r1 r2 r3 = 0 := by
  have hx : a * r1.x + b * r2.x + c * r3.x = 0 := congrArg Vec3.x hcomb
  have hy : a * r1.y + b * r2.y + c * r3.y = 0 := congrArg Vec3.y hcomb
  have hz : a * r1.z + b * r2.z + c * r3.z = 0 := congrArg Vec3.z hcomb
  refine ⟨?_, ?_, ?_⟩ <;> simp only [det3]
  · linear_combination (r2.y * r3.z - r2.z * r3.y) * hx
      - (r2.x * r3.z - r2.z * r3.x) * hy + (r2.x * r3.y - r2.y * r3.x) * hz
  · linear_combination (-(r1.y * r3.z - r1.z * r3.y)) * hx
      + (r1.x * r3.z - r1.z * r3.x) * hy - (r1.x * r3.y - r1.y * r3.x) * hz
  · linear_combination (r1.y * r2.z - r1.z * r2.y) * hx
      - (r1.x * r2.z - r1.z * r2.x) * hy + (r1.x * r2.y - r1.y * r2.x) * hz

/-- Linearly dependent (collinear or coplanar) rows give a zero
determinant. -/
lemma det3_eq_zero_of_dep {α : Type} [Field α] (r1 r2 r3 : Vec3 α)
    (h : ∃ a b c : α, (a ≠ 0 ∨ b ≠ 0 ∨ c ≠ 0) ∧
      vadd3 (vadd3 (smul3 a r1) (smul3 b r2)) (smul3 c r3) = ⟨0, 0, 0⟩) :
    det3 r1 r2 r3 = 0 := by
  obtain ⟨a, b, c, hne, hcomb⟩ := h
  obtain ⟨ha, hb, hc⟩ := det3_mul_eq_zero_of_comb r1 r2 r3 a b c hcomb
  rcases hne with h0 | h0 | h0
  · exact (mul_eq_zero.mp ha).resolve_left h0
  · exact (mul_eq_zero.mp hb).resolve_left h0
  · exact (mul_eq_zero.mp hc).resolve_left h0

/-- The error signalled when the plane solver's linear system is singular
(spec name `SingularGeometryError`; numpy raises `LinAlgError`). -/
inductive SingularGeometryError where
  | singularMatrix
  deriving DecidableEq

/-- The `np.linalg.solve(p, t)` call inside `solve_plane`, with numpy's
raise-on-singular behaviour made explicit: on a singular matrix the call
raises instead of returning a numeric solution; otherwise it returns the
unique (Cramer) solution. -/
def np_solve (r1 r2 r3 t : Vec3 ℚ) : Except SingularGeometryError (Vec3 ℚ) :=
  if det3 r1 r2 r3 = 0 then .error .singularMatrix
  else .ok (cramer3 r1 r2 r3 t)

/-- C3: for every call of the plane solver in which the three
position-difference row vectors are collinear or coplanar (linearly
dependent rows, singular matrix), the solve raises the singular-geometry
error rather than returning a numeric solution. -/
theorem solve_plane_singular_error (r1 r2 r3 t : Vec3 ℚ)
    (h : ∃ a b c : ℚ, (a ≠ 0 ∨ b ≠ 0 ∨ c ≠ 0) ∧
      vadd3 (vadd3 (smul3 a r1) (smul3 b r2)) (smul3 c r3) = ⟨0, 0, 0⟩) :
    np_solve r1 r2 r3 t = .error .singularMatrix := by
  have hdet : det3 r1 r2 r3 = 0 := det3_eq_zero_of_dep r1 r2 r3 h
  simp [np_solve, hdet]

/-- Witness for C3: three collinear spacecraft position rows
`(1,2,3)`, `(2,4,6)`, `(0,0,1)` (the second is twice the first) make the
solver signal the singular-geometry error. -/
theorem solve_plane_singular_error_witness :
    (∃ a b c : ℚ, (a ≠ 0 ∨ b ≠ 0 ∨ c ≠ 0) ∧
      vadd3 (vadd3 (smul3 a ⟨1, 2, 3⟩) (smul3 b ⟨2, 4, 6⟩)) (smul3 c ⟨0, 0, 1⟩)
        = (⟨0, 0, 0⟩ : Vec3 ℚ)) ∧
    np_solve ⟨1, 2, 3⟩ ⟨2, 4, 6⟩ ⟨0, 0, 1⟩ ⟨1, 1, 1⟩ = .error .singularMatrix := by
  have hdep : ∃ a b c : ℚ, (a ≠ 0 ∨ b ≠ 0 ∨ c ≠ 0) ∧
      vadd3 (vadd3 (smul3 a ⟨1, 2, 3⟩) (smul3 b ⟨2, 4, 6⟩)) (smul3 c ⟨0, 0, 1⟩)
        = (⟨0, 0, 0⟩ : Vec3 ℚ) :=
    ⟨2, -1, 0, Or.inl (by norm_num), by simp [vadd3, smul3]; norm_num⟩
  exact ⟨hdep, solve_plane_singular_error ⟨1, 2, 3⟩ ⟨2, 4, 6⟩ ⟨0, 0, 1⟩ ⟨1, 1, 1⟩ hdep⟩

noncomputable section

/-- Euclidean norm of a 3-vector (`np.linalg.norm`). -/
def enorm (v : Vec3 ℝ) : ℝ := Real.sqrt (v.x ^ 2 + v.y ^ 2 + v.z ^ 2)

/-- `solve_plane(p, t)` from `model_time_range.py`: solve the position /
time-offset system for `vna`, then return the normalized direction
`vn = vna / |vna|` and the magnitude `vm = 1 / |vna|`, i.e.
`(vna, vn, vm)`. -/
def solve_plane (r1 r2 r3 t : Vec3 ℝ) : Vec3 ℝ × Vec3 ℝ × ℝ :=
  let vna := cramer3 r1 r2 r3 t
  (vna,
   ⟨vna.x / enorm vna, vna.y / enorm vna, vna.z / enorm vna⟩,
   1 / enorm vna)

lemma sq_sum_pos_of_ne_zero (v : Vec3 ℝ) (h : v ≠ ⟨0, 0, 0⟩) :
    0 < v.x ^ 2 + v.y ^ 2 + v.z ^ 2 := by
  rcases lt_or_eq_of_le (by positivity : (0:ℝ) ≤ v.x ^ 2 + v.y ^ 2 + v.z ^ 2) with h1 | h1
  · exact h1
  · exfalso
    apply h
    have hx : v.x = 0 := by nlinarith [sq_nonneg v.x, sq_nonneg v.y, sq_nonneg v.z]
    have hy : v.y = 0 := by nlinarith [sq_nonneg v.x, sq_nonneg v.y, sq_nonneg v.z]
    have hz : v.z = 0 := by nlinarith [sq_nonneg v.x, sq_nonneg v.y, sq_nonneg v.z]
    have hv : v = ⟨v.x, v.y, v.z⟩ := rfl
    rw [hv, hx, hy, hz]

lemma enorm_pos_of_ne_zero (v : Vec3 ℝ) (h : v ≠ ⟨0, 0, 0⟩) : 0 < enorm v :=
  Real.sqrt_pos.mpr (sq_sum_pos_of_ne_zero v h)

/-- C1: for every nonsingular 3x3 position-difference matrix and every
time-offset vector for which the linear solve yields a nonzero vector,
`solve_plane` returns a normal vector of unit Euclidean length and a
strictly positive scalar speed equal to the reciprocal of the solved
vector's norm. -/
theorem solve_plane_unit_normal (r1 r2 r3 t : Vec3 ℝ)
    (hdet : det3 r1 r2 r3 ≠ 0)
    (hv : cramer3 r1 r2 r3 t ≠ ⟨0, 0, 0⟩) :
    enorm (solve_plane r1 r2 r3 t).2.1 = 1 ∧
    (solve_plane r1 r2 r3 t).2.2 = 1 / enorm (solve_plane r1 r2 r3 t).1 ∧
    0 < (solve_plane r1 r2 r3 t).2.2 := by
  set vna := cramer3 r1 r2 r3 t with hvna
  have hred : solve_plane r1 r2 r3 t =
      (vna, ⟨vna.x / enorm vna, vna.y / enorm vna, vna.z / enorm vna⟩,
       1 / enorm vna) := rfl
  have hpos : 0 < enorm vna := enorm_pos_of_ne_zero vna hv
  have hne : enorm vna ≠ 0 := ne_of_gt hpos
  have hsq : (enorm vna) ^ 2 = vna.x ^ 2 + vna.y ^ 2 + vna.z ^ 2 :=
    Real.sq_sqrt (by positivity)
  rw [hred]
  refine ⟨?_, rfl, by positivity⟩
  show Real.sqrt ((vna.x / enorm vna) ^ 2 + (vna.y / enorm vna) ^ 2
      + (vna.z / enorm vna) ^ 2) = 1
  have hsum : (vna.x / enorm vna) ^ 2 + (vna.y / enorm vna) ^ 2
      + (vna.z / enorm vna) ^ 2 = 1 := by
    field_simp
    linarith [hsq]
  rw [hsum, Real.sqrt_one]

/-- Witness for C1: the identity position matrix with time offsets
`(3, 4, 0)` has nonzero determinant, a nonzero solved vector, and yields a
unit normal with positive speed. -/
theorem solve_plane_unit_normal_witness :
    det3 (⟨1, 0, 0⟩ : Vec3 ℝ) ⟨0, 1, 0⟩ ⟨0, 0, 1⟩ ≠ 0 ∧
    cramer3 (⟨1, 0, 0⟩ : Vec3 ℝ) ⟨0, 1, 0⟩ ⟨0, 0, 1⟩ ⟨3, 4, 0⟩ ≠ ⟨0, 0, 0⟩ ∧
    (enorm (solve_plane ⟨1, 0, 0⟩ ⟨0, 1, 0⟩ ⟨0, 0, 1⟩ ⟨3, 4, 0⟩).2.1 = 1 ∧
     (solve_plane ⟨1, 0, 0⟩ ⟨0, 1, 0⟩ ⟨0, 0, 1⟩ ⟨3, 4, 0⟩).2.2 =
       1 / enorm (solve_plane ⟨1, 0, 0⟩ ⟨0, 1, 0⟩ ⟨0, 0, 1⟩ ⟨3, 4, 0⟩).1 ∧
     0 < (solve_plane ⟨1, 0, 0⟩ ⟨0, 1, 0⟩ ⟨0, 0, 1⟩ ⟨3, 4, 0⟩).2.2) := by
  have hdet : det3 (⟨1, 0, 0⟩ : Vec3 ℝ) ⟨0, 1, 0⟩ ⟨0, 0, 1⟩ ≠ 0 := by
    norm_num [det3]
  have hv : cramer3 (⟨1, 0, 0⟩ : Vec3 ℝ) ⟨0, 1, 0⟩ ⟨0, 0, 1⟩ ⟨3, 4, 0⟩ ≠ ⟨0, 0, 0⟩ := by
    intro heq
    have := congrArg Vec3.x heq
    norm_num [cramer3, det3] at this
  exact ⟨hdet, hv, solve_plane_unit_normal ⟨1, 0, 0⟩ ⟨0, 1, 0⟩ ⟨0, 0, 1⟩ ⟨3, 4, 0⟩ hdet hv⟩

end

noncomputable section

/-- The sunward reference propagation axis `[-1, 0, 0]` (GSE) used by
`dtw_plane.pred_earth`. -/
def sunward : Vec3 ℝ := ⟨-1, 0, 0⟩

/-- `theta = np.degrees(np.arccos(vn.T.dot([-1., 0., 0.])))`: the angle,
in degrees, between a solved normal and the sunward axis. -/
def theta_deg (vn : Vec3 ℝ) : ℝ := (180 / Real.pi) * Real.arccos (dot3 vn sunward)

/-- One event of the `pred_earth` loop, abstracted to its solved plane:
the normal vector `vn` and the speed `vm`. -/
abbrev PlanePair := Vec3 ℝ × ℝ

/-- The event loop of `dtw_plane.pred_earth` restricted to the angle
validity gate and the per-event store of emitted `(normal, speed)` pairs
(`event_dict[esp+'_nvec']` / `event_dict[esp+'_velo']`), as a step
relation `PredEarth cut events store finalStore`:

* if `theta <= cut` the solved pair is used for the prediction and
  appended to the store;
* if `theta > cut` and the store is nonempty, the solved pair is replaced
  by the most recent stored pair, which is used and re-appended;
* if `theta > cut` and the store is empty, the event is skipped entirely
  (`continue`): nothing is emitted. -/
inductive PredEarth (cut : ℝ) : List PlanePair → List PlanePair → List PlanePair → Prop where
  | done (st : List PlanePair) : PredEarth cut [] st st
  | keep (ev : PlanePair) (evs : List PlanePair) (st out : List PlanePair)
      (hth : ¬ theta_deg ev.1 > cut)
      (next : PredEarth cut evs (st ++ [ev]) out) :
      PredEarth cut (ev :: evs) st out
  | fallback (ev : PlanePair) (evs : List PlanePair) (st out : List PlanePair)
      (p : PlanePair)
      (hth : theta_deg ev.1 > cut) (hp : st.getLast? = some p)
      (next : PredEarth cut evs (st ++ [p]) out) :
      PredEarth cut (ev :: evs) st out
  | skip (ev : PlanePair) (evs : List PlanePair) (out : List PlanePair)
      (hth : theta_deg ev.1 > cut)
      (next : PredEarth cut evs [] out) :
      PredEarth cut (ev :: evs) [] out

/-- The store of emitted pairs only ever holds gate-passing normals. -/
lemma predEarth_inv {cut : ℝ} {evs st out : List PlanePair}
    (h : PredEarth cut evs st out)
    (hst : ∀ q ∈ st, theta_deg q.1 ≤ cut) :
    ∀ q ∈ out, theta_deg q.1 ≤ cut := by
  induction h with
  | done st => exact hst
  | keep ev evs st out hth next ih =>
      refine ih ?_
      intro q hq
      rcases List.mem_append.mp hq with hq | hq
      · exact hst q hq
      · rcases List.mem_singleton.mp hq with rfl
        exact le_of_not_lt hth
  | fallback ev evs st out p hth hp next ih =>
      refine ih ?_
      intro q hq
      rcases List.mem_append.mp hq with hq | hq
      · exact hst q hq
      · rcases List.mem_singleton.mp hq with rfl
        have hmem : q ∈ st := by
          have hq' : q ∈ st.getLast? := by rw [hp]; rfl
          obtain ⟨hne, heq⟩ := List.mem_getLast?_eq_getLast hq'
          rw [heq]
          exact List.getLast_mem hne
        exact hst q hmem
  | skip ev evs out hth next ih =>
      exact ih (by intro q hq; exact absurd hq (List.not_mem_nil q))

/-- C2: in the `pred_earth` loop with angle cutoff `cut`, a solved
normal at more than `cut` degrees from the sunward axis is replaced by
the most recent stored valid pair when one exists and skipped otherwise
(both encoded in `PredEarth`); consequently, starting from an empty
store, every emitted `(normal, speed)` prediction pair satisfies the
gate: its normal is within `cut` degrees of the sunward axis. -/
theorem pred_earth_gate (cut : ℝ) (evs out : List PlanePair)
    (h : PredEarth cut evs [] out) :
    ∀ q ∈ out, theta_deg q.1 ≤ cut :=
  predEarth_inv h (by intro q hq; exact absurd hq (List.not_mem_nil q))

lemma theta_deg_pos_x : theta_deg ⟨1, 0, 0⟩ = 180 := by
  have hdot : dot3 (⟨1, 0, 0⟩ : Vec3 ℝ) sunward = -1 := by
    norm_num [dot3, sunward]
  rw [theta_deg, hdot, Real.arccos_neg_one]
  field_simp

lemma theta_deg_neg_x : theta_deg ⟨-1, 0, 0⟩ = 0 := by
  have hdot : dot3 (⟨-1, 0, 0⟩ : Vec3 ℝ) sunward = 1 := by
    norm_num [dot3, sunward]
  rw [theta_deg, hdot, Real.arccos_one, mul_zero]

/-- Witness for C2: at cutoff 70, a first event with sunward normal
`(-1,0,0)` (angle 0) is kept, a second event with anti-sunward normal
`(1,0,0)` (angle 180) is replaced by the stored pair; both emitted pairs
pass the gate. -/
theorem pred_earth_gate_witness :
    PredEarth 70 [(⟨-1, 0, 0⟩, 400), (⟨1, 0, 0⟩, 500)] []
      [(⟨-1, 0, 0⟩, 400), (⟨-1, 0, 0⟩, 400)] ∧
    ∀ q ∈ ([(⟨-1, 0, 0⟩, 400), (⟨-1, 0, 0⟩, 400)] : List PlanePair),
      theta_deg q.1 ≤ 70 := by
  have hrun : PredEarth 70 [(⟨-1, 0, 0⟩, 400), (⟨1, 0, 0⟩, 500)] []
      [(⟨-1, 0, 0⟩, 400), (⟨-1, 0, 0⟩, 400)] := by
    refine PredEarth.keep _ _ _ _ ?_ ?_
    · rw [theta_deg_neg_x]; norm_num
    · refine PredEarth.fallback _ _ _ _ (⟨-1, 0, 0⟩, 400) ?_ rfl ?_
      · rw [theta_deg_pos_x]; norm_num
      · exact PredEarth.done _
  exact ⟨hrun, pred_earth_gate 70 _ _ hrun⟩

end

/-- `off_sol = (p_mat.iloc[path[1],:].index - t_mat.iloc[path[0],:].index)`:
the per-pair time offsets extracted from a warping path.  `ref` and `comp`
are the reference (trainer) and comparison timestamp indexes, in seconds;
`path` is the warping path as a list of index pairs `(i, j)`. -/
def off_sol (ref comp : List ℤ) (path : List (ℕ × ℕ)) : List ℤ :=
  path.map fun ij => comp.getD ij.2 0 - ref.getD ij.1 0

/-- `b_mat = b_mat.reindex(b_mat.iloc[path[1],:].index)` followed by
`b_mat.index = b_mat.index - off_sol`: the re-indexed comparison series'
time index, one entry per path pair. -/
def b_mat_index (ref comp : List ℤ) (path : List (ℕ × ℕ)) : List ℤ :=
  List.zipWith (fun c o => c - o)
    (path.map fun ij => comp.getD ij.2 0) (off_sol ref comp path)

lemma off_sol_getD (ref comp : List ℤ) (path : List (ℕ × ℕ)) (k : ℕ)
    (hk : k < path.length) :
    (off_sol ref comp path).getD k 0 =
      comp.getD (path.getD k (0, 0)).2 0 - ref.getD (path.getD k (0, 0)).1 0 := by
  induction path generalizing k with
  | nil => simp at hk
  | cons hd tl ih =>
      cases k with
      | zero => rfl
      | succ k =>
          have hk' : k < tl.length := by simpa using hk
          simpa [off_sol] using ih k hk'

lemma b_mat_index_getD (ref comp : List ℤ) (path : List (ℕ × ℕ)) (k : ℕ)
    (hk : k < path.length) :
    (b_mat_index ref comp path).getD k 0 =
      comp.getD (path.getD k (0, 0)).2 0 - (off_sol ref comp path).getD k 0 := by
  induction path generalizing k with
  | nil => simp at hk
  | cons hd tl ih =>
      cases k with
      | zero => rfl
      | succ k =>
          have hk' : k < tl.length := by simpa using hk
          simpa [b_mat_index, off_sol] using ih k hk'

/-- C4: for every warping path and every index pair `(i, j)` on it, the
extracted offset equals `comparison_timestamps[j] - reference_timestamps[i]`,
and the re-indexed comparison series is keyed by the comparison timestamps
shifted backward by exactly these offsets. -/
theorem dtw_offset_extraction (ref comp : List ℤ) (path : List (ℕ × ℕ))
    (k i j : ℕ) (hk : k < path.length) (hij : path.getD k (0, 0) = (i, j))
    (hi : i < ref.length) (hj : j < comp.length) :
    (off_sol ref comp path).getD k 0 = comp.get ⟨j, hj⟩ - ref.get ⟨i, hi⟩ ∧
    (b_mat_index ref comp path).getD k 0 =
      comp.get ⟨j, hj⟩ - (off_sol ref comp path).getD k 0 := by
  have h1 := off_sol_getD ref comp path k hk
  have h2 := b_mat_index_getD ref comp path k hk
  rw [hij] at h1 h2
  simp only at h1 h2
  rw [List.getD_eq_getElem comp 0 hj, List.getD_eq_getElem ref 0 hi] at h1
  rw [List.getD_eq_getElem comp 0 hj] at h2
  exact ⟨by simpa using h1, by simpa using h2⟩

/-- Witness for C4: path pair `(1, 2)` at position 1 of a concrete path,
with reference index `[0, 10, 20]` and comparison index `[5, 17, 31]`. -/
theorem dtw_offset_extraction_witness :
    (1 < ([(0, 0), (1, 2)] : List (ℕ × ℕ)).length ∧
     ([(0, 0), (1, 2)] : List (ℕ × ℕ)).getD 1 (0, 0) = (1, 2) ∧
     1 < ([0, 10, 20] : List ℤ).length ∧ 2 < ([5, 17, 31] : List ℤ).length) ∧
    ((off_sol [0, 10, 20] [5, 17, 31] [(0, 0), (1, 2)]).getD 1 0 = 31 - 10 ∧
     (b_mat_index [0, 10, 20] [5, 17, 31] [(0, 0), (1, 2)]).getD 1 0 =
       31 - (off_sol [0, 10, 20] [5, 17, 31] [(0, 0), (1, 2)]).getD 1 0) := by
  refine ⟨⟨by decide, by decide, by decide, by decide⟩, ?_⟩
  have h := dtw_offset_extraction [0, 10, 20] [5, 17, 31] [(0, 0), (1, 2)]
    1 1 2 (by decide) (by decide) (by decide) (by decide)
  simpa using h

/-- C5: adding each stored offset back to the re-indexed timestamp
reproduces the original comparison timestamp at the path's comparison
index (exact round trip). -/
theorem dtw_offset_round_trip (ref comp : List ℤ) (path : List (ℕ × ℕ))
    (k i j : ℕ) (hk : k < path.length) (hij : path.getD k (0, 0) = (i, j))
    (hj : j < comp.length) :
    (b_mat_index ref comp path).getD k 0 + (off_sol ref comp path).getD k 0 =
      comp.get ⟨j, hj⟩ := by
  have h2 := b_mat_index_getD ref comp path k hk
  rw [hij] at h2
  simp only at h2
  rw [List.getD_eq_getElem comp 0 hj] at h2
  rw [h2]
  simp

/-- Witness for C5: the round trip at path pair `(1, 2)` of the concrete
path of the C4 witness. -/
theorem dtw_offset_round_trip_witness :
    (1 < ([(0, 0), (1, 2)] : List (ℕ × ℕ)).length ∧
     ([(0, 0), (1, 2)] : List (ℕ × ℕ)).getD 1 (0, 0) = (1, 2) ∧
     2 < ([5, 17, 31] : List ℤ).length) ∧
    (b_mat_index [0, 10, 20] [5, 17, 31] [(0, 0), (1, 2)]).getD 1 0 +
        (off_sol [0, 10, 20] [5, 17, 31] [(0, 0), (1, 2)]).getD 1 0 = 31 := by
  refine ⟨⟨by decide, by decide, by decide⟩, ?_⟩
  have h := dtw_offset_round_trip [0, 10, 20] [5, 17, 31] [(0, 0), (1, 2)]
    1 1 2 (by decide) (by decide) (by decide)
  simpa using h

/-- Insertion of a rational into a sorted list (helper for the sort
underlying the pandas/numpy median). -/
def insertSorted (a : ℚ) : List ℚ → List ℚ
  | [] => [a]
  | b :: bs => if a ≤ b then a :: b :: bs else b :: insertSorted a bs

/-- Sorting of a list of rationals (insertion sort). -/
def sortQ (l : List ℚ) : List ℚ := l.foldr insertSorted []

/-- The pandas/numpy median of a list of values: the middle element of the
sorted list for odd length, the mean of the two middle elements for even
length (0 on the empty list, which pandas maps to NaN; never used on an
empty list here). -/
def medianQ (l : List ℚ) : ℚ :=
  let s := sortQ l
  if l.length % 2 = 1 then s.getD (l.length / 2) 0
  else (s.getD (l.length / 2 - 1) 0 + s.getD (l.length / 2) 0) / 2

/-- `np.diff` on a timestamp index: successive differences. -/
def diffsQ (ts : List ℚ) : List ℚ := List.zipWith (fun a b => b - a) ts ts.tail

/-- `float(np.median(np.diff(index)) * 1e-9)`: the median sample interval
of a series, in seconds (timestamps modelled in seconds). -/
def median_diff (ts : List ℚ) : ℚ := medianQ (diffsQ ts)

/-- `penalty_r1 = 60. * pr / np.min([dt1, dt2])` from `dtw_plane.dtw`,
where `dt1`, `dt2` are the median sample intervals of the trainer and
comparison series. -/
def penalty_r1 (pr : ℚ) (tref tcomp : List ℚ) : ℚ :=
  60 * pr / min (median_diff tref) (median_diff tcomp)

/-- `penalty_r2 = 60. * pr / np.max([dt1, dt2])` from `dtw_plane.dtw`. -/
def penalty_r2 (pr : ℚ) (tref tcomp : List ℚ) : ℚ :=
  60 * pr / max (median_diff tref) (median_diff tcomp)

/-- Counterexample to C7 as stated: with a trainer cadence of 2 s and a
comparison cadence of 1 s, the first radius is `60/min = 60` samples, not
the per-series value `60/dt1 = 30`; the radii are not computed from each
series' own interval independently. -/
theorem penalty_radii_counterexample :
    ¬ (penalty_r1 1 [0, 2, 4, 6] [0, 1, 2, 3] = 60 * 1 / median_diff [0, 2, 4, 6] ∧
       penalty_r2 1 [0, 2, 4, 6] [0, 1, 2, 3] = 60 * 1 / median_diff [0, 1, 2, 3]) := by
  intro h
  obtain ⟨h1, h2⟩ := h
  norm_num [penalty_r1, penalty_r2, median_diff, diffsQ, medianQ, sortQ,
    insertSorted] at h1

/-- C7 (amended): the two penalty radii are `(minutes_allowed * 60)`
divided by the minimum and by the maximum of the two series' median
sample intervals; as an unordered pair they coincide with the per-series
values, but the first radius is always the larger one (the per-series
value of the coarser-cadence series is the smaller radius, passed
second). -/
theorem penalty_radii_minmax (pr : ℚ) (tref tcomp : List ℚ)
    (h1 : 0 < median_diff tref) (h2 : 0 < median_diff tcomp) (hpr : 0 ≤ pr) :
    ((penalty_r1 pr tref tcomp = 60 * pr / median_diff tref ∧
      penalty_r2 pr tref tcomp = 60 * pr / median_diff tcomp) ∨
     (penalty_r1 pr tref tcomp = 60 * pr / median_diff tcomp ∧
      penalty_r2 pr tref tcomp = 60 * pr / median_diff tref)) ∧
    penalty_r2 pr tref tcomp ≤ penalty_r1 pr tref tcomp := by
  constructor
  · rcases le_total (median_diff tref) (median_diff tcomp) with h | h
    · left
      exact ⟨by rw [penalty_r1, min_eq_left h], by rw [penalty_r2, max_eq_right h]⟩
    · right
      exact ⟨by rw [penalty_r1, min_eq_right h], by rw [penalty_r2, max_eq_left h]⟩
  · exact div_le_div_of_nonneg_left (by positivity) (lt_min h1 h2) min_le_max

/-- Witness for C7 (amended): concrete series of cadence 2 s and 1 s. -/
theorem penalty_radii_minmax_witness :
    (0 < median_diff [0, 2, 4, 6] ∧ 0 < median_diff [0, 1, 2, 3] ∧ (0:ℚ) ≤ 1) ∧
    (((penalty_r1 1 [0, 2, 4, 6] [0, 1, 2, 3] = 60 * 1 / median_diff [0, 2, 4, 6] ∧
       penalty_r2 1 [0, 2, 4, 6] [0, 1, 2, 3] = 60 * 1 / median_diff [0, 1, 2, 3]) ∨
      (penalty_r1 1 [0, 2, 4, 6] [0, 1, 2, 3] = 60 * 1 / median_diff [0, 1, 2, 3] ∧
       penalty_r2 1 [0, 2, 4, 6] [0, 1, 2, 3] = 60 * 1 / median_diff [0, 2, 4, 6])) ∧
     penalty_r2 1 [0, 2, 4, 6] [0, 1, 2, 3] ≤ penalty_r1 1 [0, 2, 4, 6] [0, 1, 2, 3]) := by
  have ha : (0:ℚ) < median_diff [0, 2, 4, 6] := by
    norm_num [median_diff, diffsQ, medianQ, sortQ, insertSorted]
  have hb : (0:ℚ) < median_diff [0, 1, 2, 3] := by
    norm_num [median_diff, diffsQ, medianQ, sortQ, insertSorted]
  exact ⟨⟨ha, hb, by norm_num⟩,
    penalty_radii_minmax 1 [0, 2, 4, 6] [0, 1, 2, 3] ha hb (by norm_num)⟩

/-- The `i.replace('_offset','')` of `dtw_plane.iterate_dtw`, for key
strings in which `_offset` occurs only as a 7-character suffix (the shape
of every offset key built by `dtw`). -/
def strip_off (k : String) : String :=
  if k.data.drop (k.data.length - 7) = "_offset".data then
    String.mk (k.data.take (k.data.length - 7))
  else k

/-- The `'30m'` half-width of the central sub-window, in seconds. -/
def thirty_minutes : ℚ := 1800

/-- `frame.loc[lo:hi]['offsets'].median()`: the median of the offsets of
the rows whose timestamp lies in the closed window `[lo, hi]`.  A frame
is a list of `(timestamp, offset)` rows, times in seconds. -/
def window_median (frame : List (ℚ × ℚ)) (lo hi : ℚ) : ℚ :=
  medianQ ((frame.filter fun r => decide (lo ≤ r.1) && decide (r.1 ≤ hi)).map Prod.snd)

/-- `self.plsm['ave_offset_'+c] = self.plsm[c+'_offset'].loc[pd_m-pd_p:pd_m+pd_p]['offsets'].median()`
with `pd_m = (pd_e - pd_s)/2 + pd_s` and `pd_p = 30` minutes: the bulk
offset of one spacecraft after the coarse pass. -/
def bulk_offset (frame : List (ℚ × ℚ)) (s e : ℚ) : ℚ :=
  let m := (e - s) / 2 + s
  window_median frame (m - thirty_minutes) (m + thirty_minutes)

/-- `c + '_offset'`: the key under which `dtw` stores a spacecraft's
offset frame. -/
def offset_key (c : String) : String := c ++ "_offset"

/-- The re-read loop of `dtw_plane.iterate_dtw`, lines 513-519, exactly as
written: `for j in off_keys:` with a body that reads and re-assigns the
stale variable `i` (which after the preceding `for j,i in
enumerate(off_keys)` loop holds the *last* offset key), never `j`.  The
loop state is the pair `(plsm, i)`; each iteration strips `_offset` from
`i`, re-reads that spacecraft over the shifted window `[s+ave, e+ave]`,
and stores the result under the stripped key. -/
def rewindow {Frame : Type} (offKeys : List String) (ave : String → ℚ)
    (readIn : String → ℚ → ℚ → Frame) (s e : ℚ) (plsm : String → Frame) :
    String → Frame :=
  match offKeys.getLast? with
  | none => plsm
  | some lastKey =>
      (offKeys.foldl
        (fun (acc : (String → Frame) × String) _ =>
          let i := strip_off acc.2
          (Function.update acc.1 i (readIn i (s + ave i) (e + ave i)), i))
        (plsm, lastKey)).1

/-- The coarse-pass bulk-offset computation followed by the re-read loop
of `iterate_dtw`: each spacecraft's bulk offset is the windowed median of
its offset frame, and the (buggy) re-read loop then runs. -/
def iterate_rewindow {Frame : Type} (offKeys : List String)
    (offFrame : String → List (ℚ × ℚ)) (readIn : String → ℚ → ℚ → Frame)
    (s e : ℚ) (plsm : String → Frame) : String → Frame :=
  rewindow offKeys (fun c => bulk_offset (offFrame (offset_key c)) s e) readIn s e plsm

/-- C6 (code bug): with two non-reference non-earth spacecraft
`ACE` and `DSCOVR` (offset keys in that order), analysis window
`[0, 7200]` s, and offset frames whose windowed medians are 100 s and
50 s, the re-read loop leaves `ACE` untouched (its plasma entry keeps its
old value `none` instead of being re-read over `[100, 7300]`), while
`DSCOVR` — the last offset key, captured by the stale loop variable —
is re-read (twice) over its own shifted window `[50, 7250]`.  The claim
that *each* spacecraft is re-read shifted by its own bulk offset fails on
the code; the unused loop variable `j` shows the spec is the intent. -/
theorem iterate_dtw_rewindow_bug :
    (iterate_rewindow ["ACE_offset", "DSCOVR_offset"]
        (fun c => if c = "ACE_offset" then [(3600, 100)] else [(3600, 50)])
        (fun c a b => some (c, a, b)) 0 7200 (fun _ => none)) "ACE" = none ∧
    (iterate_rewindow ["ACE_offset", "DSCOVR_offset"]
        (fun c => if c = "ACE_offset" then [(3600, 100)] else [(3600, 50)])
        (fun c a b => some (c, a, b)) 0 7200 (fun _ => none)) "DSCOVR"
      = some ("DSCOVR", 50, 7250) ∧
    (some ("ACE", (0:ℚ) + 100, (7200:ℚ) + 100) ≠ (none : Option (String × ℚ × ℚ))) := by
  refine ⟨?_, ?_, by simp⟩ <;>
    norm_num +decide [iterate_rewindow, rewindow, bulk_offset, window_median, medianQ,
      sortQ, insertSorted, strip_off, offset_key, thirty_minutes,
      Function.update]

/-- The swap logic around the penalized aligner call in `dtw_plane.dtw`
(lines 694-715): `x1` is the trainer (reference) values, `x2` the
comparison values; if `x2.size > x1.size` the two are exchanged before
`md.dtw_path_single(x1, x2, ...)` and the returned path — a pair of index
sequences `(path[0], path[1])` — is reversed (`path[::-1]`) afterwards.
`align` abstracts the underlying alignment routine. -/
def dtw_flip (align : List ℚ → List ℚ → List ℕ × List ℕ) (x1 x2 : List ℚ) :
    List ℕ × List ℕ :=
  if x2.length > x1.length then
    let p := align x2 x1
    (p.2, p.1)
  else
    align x1 x2

/-- C8: whenever the comparison series is strictly longer than the
reference series, the two are swapped before alignment and the resulting
path's two index sequences are exchanged afterwards; with equal lengths
no swap occurs and the aligner is called on `(reference, comparison)`
order directly. -/
theorem dtw_flip_swap (align : List ℚ → List ℚ → List ℕ × List ℕ)
    (x1 x2 : List ℚ) :
    (x2.length > x1.length →
      dtw_flip align x1 x2 = ((align x2 x1).2, (align x2 x1).1)) ∧
    (x1.length = x2.length → dtw_flip align x1 x2 = align x1 x2) := by
  constructor
  · intro h
    simp [dtw_flip, h]
  · intro h
    have hno : ¬ x2.length > x1.length := by omega
    simp [dtw_flip, hno]

/-- Witness for C8: an aligner stub that records the lengths of the
series it receives, applied to a strictly longer comparison series and to
an equal-length pair. -/
theorem dtw_flip_swap_witness :
    (([10, 20] : List ℚ).length > ([1] : List ℚ).length ∧
     dtw_flip (fun a b => ([a.length], [b.length])) [1] [10, 20] = ([1], [2])) ∧
    (([1] : List ℚ).length = ([10] : List ℚ).length ∧
     dtw_flip (fun a b => ([a.length], [b.length])) [1] [10] = ([1], [1])) := by
  constructor
  · refine ⟨by decide, ?_⟩
    have h := (dtw_flip_swap (fun a b => ([a.length], [b.length])) [1] [10, 20]).1
      (by decide)
    simpa using h
  · refine ⟨by decide, ?_⟩
    have h := (dtw_flip_swap (fun a b => ([a.length], [b.length])) [1] [10]).2
      (by decide)
    simpa using h

/-- The error signalled by the aligner on malformed input (spec name
`AlignmentError`). -/
inductive AlignmentError where
  | degenerateInput
  deriving DecidableEq

/-- Forward fill: each `none` (NaN) is replaced by the last preceding
`some` value, if any (`pandas .ffill()`). -/
def ffillAux : Option ℚ → List (Option ℚ) → List (Option ℚ)
  | _, [] => []
  | last, none :: rest => last :: ffillAux last rest
  | _, some v :: rest => some v :: ffillAux (some v) rest

/-- `series.ffill()`. -/
def ffill (l : List (Option ℚ)) : List (Option ℚ) := ffillAux none l

/-- `series.bfill()`: backward fill, the reverse of a forward fill. -/
def bfill (l : List (Option ℚ)) : List (Option ℚ) := (ffillAux none l.reverse).reverse

/-- Modelled from the spec: `multi_dtw.dtw_path_single` — the repository's
own penalized DTW aligner module `multi_dtw`, imported by
`model_time_range.py` but not present under `src/` — signals
`AlignmentError` when either input series is empty or contains non-finite
(NaN, modelled `none`) values, and otherwise defers to a total alignment
core `core` on the finite values. -/
def dtw_path_single (core : List ℚ → List ℚ → List ℕ × List ℕ)
    (x1 x2 : List (Option ℚ)) : Except AlignmentError (List ℕ × List ℕ) :=
  if x1.isEmpty ∨ x2.isEmpty ∨ x1.any (fun v => v.isNone) ∨ x2.any (fun v => v.isNone)
  then .error .degenerateInput
  else .ok (core x1.reduceOption x2.reduceOption)

/-- The caller side in `dtw_plane.dtw`: both series are forward- and
backward-filled (`.ffill().bfill()`) before being handed to the aligner. -/
def dtw_call (core : List ℚ → List ℚ → List ℕ × List ℕ)
    (t p : List (Option ℚ)) : Except AlignmentError (List ℕ × List ℕ) :=
  dtw_path_single core (bfill (ffill t)) (bfill (ffill p))

/-- C9: for every input to the DTW aligner in which either series is
empty or still contains non-finite values after forward/backward fill,
the aligner signals `AlignmentError` instead of returning a warping
path. -/
theorem dtw_align_error (core : List ℚ → List ℚ → List ℕ × List ℕ)
    (t p : List (Option ℚ))
    (h : t = [] ∨ p = [] ∨ (bfill (ffill t)).any (fun v => v.isNone) ∨
      (bfill (ffill p)).any (fun v => v.isNone)) :
    dtw_call core t p = .error .degenerateInput := by
  rw [dtw_call, dtw_path_single]
  rcases h with h | h | h | h
  · rw [if_pos]
    left
    subst h
    rfl
  · rw [if_pos]
    right; left
    subst h
    rfl
  · rw [if_pos]
    right; right; left
    exact h
  · rw [if_pos]
    right; right; right
    exact h

/-- Witness for C9: a comparison series that is all-NaN stays all-NaN
after forward/backward fill, and the aligner signals the error. -/
theorem dtw_align_error_witness :
    (([] : List (Option ℚ)) = [] ∨ ([none, none] : List (Option ℚ)) = [] ∨
      (bfill (ffill ([some 1, some 2] : List (Option ℚ)))).any (fun v => v.isNone) ∨
      (bfill (ffill ([none, none] : List (Option ℚ)))).any (fun v => v.isNone)) ∧
    dtw_call (fun _ _ => ([], [])) [some 1, some 2] [none, none]
      = .error .degenerateInput := by
  have h : ([some 1, some 2] : List (Option ℚ)) = [] ∨
      ([none, none] : List (Option ℚ)) = [] ∨
      (bfill (ffill ([some 1, some 2] : List (Option ℚ)))).any (fun v => v.isNone) ∨
      (bfill (ffill ([none, none] : List (Option ℚ)))).any (fun v => v.isNone) := by
    right; right; right
    rfl
  exact ⟨Or.inl rfl, dtw_align_error (fun _ _ => ([], [])) [some 1, some 2] [none, none] h⟩

/-- The offset frame stored for the trainer:
`t_mat['offsets'] = pd.to_timedelta(0)` assigns the zero timedelta to
every row of the trainer matrix. -/
def trainer_offset_frame (tIndex : List ℚ) : List (ℚ × ℚ) :=
  tIndex.map fun ts => (ts, 0)

/-- The store updates at the end of `dtw_plane.dtw`: each comparison
spacecraft `k` gets its offset frame under key `k + '_offset'` during the
loop, and afterwards the trainer's zero-offset frame is stored under
`trainer + '_offset'`. -/
def dtw_store (trainer : String) (others : List String)
    (bMat : String → List (ℚ × ℚ)) (tIndex : List ℚ)
    (plsm : String → Option (List (ℚ × ℚ))) : String → Option (List (ℚ × ℚ)) :=
  let p1 := others.foldl
    (fun acc k => Function.update acc (offset_key k) (some (bMat k))) plsm
  Function.update p1 (offset_key trainer) (some (trainer_offset_frame tIndex))

/-- C10: after the `dtw()` pass completes, the offset series stored for
the reference (trainer) spacecraft assigns the zero time delta to every
sample of its series, for every input window and configuration. -/
theorem trainer_offset_zero (trainer : String) (others : List String)
    (bMat : String → List (ℚ × ℚ)) (tIndex : List ℚ)
    (plsm : String → Option (List (ℚ × ℚ))) :
    ∃ f, dtw_store trainer others bMat tIndex plsm (offset_key trainer) = some f ∧
      f.map Prod.fst = tIndex ∧ ∀ r ∈ f, r.2 = 0 := by
  refine ⟨trainer_offset_frame tIndex, ?_, ?_, ?_⟩
  · rw [dtw_store]
    exact Function.update_same _ _ _
  · simp only [trainer_offset_frame, List.map_map]
    exact List.map_id tIndex
  · intro r hr
    simp only [trainer_offset_frame, List.mem_map] at hr
    obtain ⟨ts, _, rfl⟩ := hr
    rfl
